import Mathlib

/-!
Shallow embedding of the stateful hash-join state core of the repository
(`src/stream/src/executor/managed_state/join/mod.rs`), the owned row model
(`src/common/src/row/owned_row.rs`), the chrono-backed timestamp arithmetic
(`src/common/src/types/chrono_wrapper.rs`) and the source state table handler
(`src/stream/src/executor/source/state_table_handler.rs`).

Machine integers are embedded as `Nat`/`Int` with explicit wrapping where the
source wraps; fallible paths and panics are embedded as `Option`/`Except`.
-/

/-- Byte strings (each element is one byte). -/
abbrev Bytes := List Nat

/-- Three-way lexicographic comparison of byte strings, as `Ord` on `Vec<u8>`
behaves in the source language. -/
def bytesCmp : Bytes → Bytes → Ordering
  | [], [] => .eq
  | [], _ :: _ => .lt
  | _ :: _, [] => .gt
  | a :: as, b :: bs =>
    match compare a b with
    | .eq => bytesCmp as bs
    | o => o

/-- Logical data types, the subset of the engine type system used in this
development (`DataType` in the common crate). -/
inductive DataType where
  | boolean
  | int16
  | int32
  | int64
  | varchar
deriving DecidableEq

/-- Scalar values (`ScalarImpl` in the common crate), restricted to the data
types above.  Integer variants carry an unbounded `Int`; the machine range is
imposed by the well-formedness predicates below. -/
inductive ScalarImpl where
  | bool (b : Bool)
  | int16 (v : Int)
  | int32 (v : Int)
  | int64 (v : Int)
  | utf8 (s : Bytes)
deriving DecidableEq

/-- `Datum = Option<ScalarImpl>`: a nullable scalar. -/
abbrev Datum := Option ScalarImpl

/-- `Row(Vec<Datum>)`: an owned row is a finite sequence of datums. -/
abbrev Row := List Datum

/-- Modelled from the spec: scalar comparison is defined within one data type
(the `ScalarImpl` ordering impl lives in `common/src/types`, outside the given
slice; the spec states datums are totally ordered within a type).  Two scalars
of different types compare to nothing. -/
def scalarPCmp : ScalarImpl → ScalarImpl → Option Ordering
  | .bool a, .bool b => some (compare a b)
  | .int16 a, .int16 b => some (compare a b)
  | .int32 a, .int32 b => some (compare a b)
  | .int64 a, .int64 b => some (compare a b)
  | .utf8 a, .utf8 b => some (bytesCmp a b)
  | _, _ => none

/-- Comparison of `Option<ScalarImpl>` following the source language ordering
on options: the null datum sorts before any present scalar. -/
def datumPCmp : Datum → Datum → Option Ordering
  | none, none => some .eq
  | none, some _ => some .lt
  | some _, none => some .gt
  | some a, some b => scalarPCmp a b

/-- Sequence comparison of datum vectors as the source language compares
slices: element-wise, first non-equal (or undefined) result decides, ties
broken by length. -/
def datumsPCmp : List Datum → List Datum → Option Ordering
  | [], [] => some .eq
  | [], _ :: _ => some .lt
  | _ :: _, [] => some .gt
  | a :: as, b :: bs =>
    match datumPCmp a b with
    | some .eq => datumsPCmp as bs
    | o => o

/-- `impl PartialOrd for Row`: rows of different lengths do not compare;
otherwise compare the underlying datum vectors. -/
def rowPCmp (a b : Row) : Option Ordering :=
  if a.length ≠ b.length then none else datumsPCmp a b

/-- `impl Ord for Row`: total comparison panics when the rows do not compare
(the panic is embedded as `Except.error`). -/
def rowCmpTotal (a b : Row) : Except String Ordering :=
  match rowPCmp a b with
  | some o => .ok o
  | none => .error "cannot compare rows with different lengths"

/-- Rank of a scalar constructor, used only to make the specification-side
lexicographic comparison total; it is never reached on type-compatible rows. -/
def scalarRank : ScalarImpl → Nat
  | .bool _ => 0
  | .int16 _ => 1
  | .int32 _ => 2
  | .int64 _ => 3
  | .utf8 _ => 4

/-- Total comparison of two scalars (specification side). -/
def scalarCmpT (a b : ScalarImpl) : Ordering :=
  match scalarPCmp a b with
  | some o => o
  | none => compare (scalarRank a) (scalarRank b)

/-- Total comparison of two datums, null first (specification side). -/
def datumCmpT : Datum → Datum → Ordering
  | none, none => .eq
  | none, some _ => .lt
  | some _, none => .gt
  | some a, some b => scalarCmpT a b

/-- Plain element-wise lexicographic comparison of datum lists (specification
side), length as the final tie break. -/
def lexCmp : List Datum → List Datum → Ordering
  | [], [] => .eq
  | [], _ :: _ => .lt
  | _ :: _, [] => .gt
  | a :: as, b :: bs =>
    match datumCmpT a b with
    | .eq => lexCmp as bs
    | o => o

/-- Two scalars have the same data type. -/
def scalarCompat : ScalarImpl → ScalarImpl → Bool
  | .bool _, .bool _ => true
  | .int16 _, .int16 _ => true
  | .int32 _, .int32 _ => true
  | .int64 _, .int64 _ => true
  | .utf8 _, .utf8 _ => true
  | _, _ => false

/-- Two datums are comparable: nulls are comparable with anything, present
scalars must agree on the data type. -/
def datumCompat : Datum → Datum → Bool
  | some a, some b => scalarCompat a b
  | _, _ => true

/-- Two rows have the same length and position-wise comparable datums, i.e.
they belong to a common schema. -/
def rowsCompat : Row → Row → Bool
  | [], [] => true
  | a :: as, b :: bs => datumCompat a b && rowsCompat as bs
  | _, _ => false

/-- Little-endian fixed-width unsigned encoding: `w` bytes of `v`. -/
def uintLE : Nat → Nat → Bytes
  | 0, _ => []
  | w + 1, v => (v % 256) :: uintLE w (v / 256)

/-- Read `w` little-endian bytes as an unsigned integer, returning the rest of
the stream; fails when the stream is too short. -/
def readLE : Nat → Bytes → Option (Nat × Bytes)
  | 0, s => some (0, s)
  | _ + 1, [] => none
  | w + 1, b :: s => (readLE w s).map fun p => (b + 256 * p.1, p.2)

/-- Reinterpret a signed `w`-bit integer as its unsigned bit pattern. -/
def toUnsigned (w : Nat) (v : Int) : Nat := (v % ((2 : Int) ^ w)).toNat

/-- Reinterpret an unsigned `w`-bit pattern as a signed two-complement
integer. -/
def fromUnsigned (w : Nat) (n : Nat) : Int :=
  if n < 2 ^ (w - 1) then (n : Int) else (n : Int) - (2 : Int) ^ w

/-- Modelled from the spec: `serialize_scalar` of the value encoding
(`common/src/util/value_encoding`, outside the given slice).  Per the spec the
value encoding is a length-prefixed per-datum byte layout; fixed-width types
are stored in their machine width (matching the byte counts asserted by
`row_value_encode_decode` in `owned_row.rs`), varchars with a 4-byte length
followed by the bytes. -/
def serializeScalar : ScalarImpl → Bytes
  | .bool b => [if b then 1 else 0]
  | .int16 v => uintLE 2 (toUnsigned 16 v)
  | .int32 v => uintLE 4 (toUnsigned 32 v)
  | .int64 v => uintLE 8 (toUnsigned 64 v)
  | .utf8 s => uintLE 4 s.length ++ s

/-- Modelled from the spec: `serialize_datum`, a one-byte null flag followed by
the scalar payload. -/
def serializeDatum : Datum → Bytes
  | none => [0]
  | some s => 1 :: serializeScalar s

/-- `Row::value_serialize`: concatenation of the datum encodings. -/
def valueSerializeRow (r : Row) : Bytes := (r.map serializeDatum).flatten

/-- Modelled from the spec: `deserialize_value` for one scalar of the given
type. -/
def deserializeScalar : DataType → Bytes → Option (ScalarImpl × Bytes)
  | .boolean, b :: rest =>
    if b = 1 then some (.bool true, rest)
    else if b = 0 then some (.bool false, rest)
    else none
  | .boolean, [] => none
  | .int16, s => (readLE 2 s).map fun p => (.int16 (fromUnsigned 16 p.1), p.2)
  | .int32, s => (readLE 4 s).map fun p => (.int32 (fromUnsigned 32 p.1), p.2)
  | .int64, s => (readLE 8 s).map fun p => (.int64 (fromUnsigned 64 p.1), p.2)
  | .varchar, s =>
    (readLE 4 s).bind fun p =>
      if p.1 ≤ p.2.length then some (.utf8 (p.2.take p.1), p.2.drop p.1)
      else none

/-- Modelled from the spec: `deserialize_datum`, reading the null flag and then
the scalar payload. -/
def deserializeDatum (t : DataType) : Bytes → Option (Datum × Bytes)
  | [] => none
  | flag :: rest =>
    if flag = 0 then some (none, rest)
    else if flag = 1 then
      (deserializeScalar t rest).map fun p => (some p.1, p.2)
    else none

/-- The loop body of `RowDeserializer::deserialize`: deserialize one datum per
schema type, threading the remaining bytes. -/
def deserializeDatums : List DataType → Bytes → Option (List Datum × Bytes)
  | [], s => some ([], s)
  | t :: ts, s =>
    (deserializeDatum t s).bind fun p =>
      (deserializeDatums ts p.2).map fun q => (p.1 :: q.1, q.2)

/-- `RowDeserializer::deserialize`: deserialize one datum per schema type and
assemble the row (trailing bytes are not inspected by the source). -/
def rowDeserialize (ts : List DataType) (s : Bytes) : Option Row :=
  (deserializeDatums ts s).map fun p => p.1

/-- A scalar inhabits the given data type, including the machine integer range
and the byte-string well-formedness that hold by construction in the source. -/
def scalarMatches : ScalarImpl → DataType → Bool
  | .bool _, .boolean => true
  | .int16 v, .int16 => decide (-(2 : Int) ^ 15 ≤ v) && decide (v < 2 ^ 15)
  | .int32 v, .int32 => decide (-(2 : Int) ^ 31 ≤ v) && decide (v < 2 ^ 31)
  | .int64 v, .int64 => decide (-(2 : Int) ^ 63 ≤ v) && decide (v < 2 ^ 63)
  | .utf8 s, .varchar => decide (s.length < 2 ^ 32) && s.all (· < 256)
  | _, _ => false

/-- A datum inhabits the given data type (null inhabits every type). -/
def datumMatches : Datum → DataType → Bool
  | none, _ => true
  | some v, t => scalarMatches v t

/-- A row matches a schema position-wise. -/
def rowMatches : Row → List DataType → Bool
  | [], [] => true
  | d :: ds, t :: ts => datumMatches d t && rowMatches ds ts
  | _, _ => false

/-- The degree counter of the join state (`type DegreeType = u64`). -/
abbrev DegreeType := Nat

/-- The cast `u64 as i64` of the source language: wrap into the signed 64-bit
range. -/
def i64OfU64 (d : Nat) : Int := ((d : Int) + 2 ^ 63) % 2 ^ 64 - 2 ^ 63

/-- The cast `i64 as u64` of the source language: wrap into the unsigned
64-bit range. -/
def u64OfI64 (v : Int) : Nat := (v % 2 ^ 64).toNat

/-- `build_degree_row`: chain the order key with a single trailing
`Int64(degree as i64)` column. -/
def build_degree_row (order_key : Row) (degree : DegreeType) : Row :=
  order_key ++ [some (.int64 (i64OfU64 degree))]

/-- `ScalarImpl::into_int64`, embedded as a fallible projection (the source
panics on a non-int64 scalar). -/
def intoInt64 : ScalarImpl → Option Int
  | .int64 v => some v
  | _ => none

/-- The degree read-back of `fetch_cached_state`:
`degree.datum_at(degree.len() - 1).expect(..).into_int64() as u64`, with the
panics on a NULL datum or a non-int64 scalar embedded as `none`. -/
def readDegree (r : Row) : Option DegreeType :=
  (r.getD (r.length - 1) none).bind fun s => (intoInt64 s).map u64OfI64

/-- Memcomparable-encoded primary keys are byte strings (`type PkType =
Vec<u8>`). -/
abbrev PkType := Bytes

/-- `Row2::project`: the view of a subset/reordering of columns. -/
def project (r : Row) (indices : List Nat) : Row :=
  indices.map fun i => r.getD i none

/-- Modelled from the spec: `OrderedRowSerde` memcomparable serialization of
the projected pk columns (`common/src/util/ordered`, outside the given slice).
The claims settled here use only that it is a fixed byte encoding of the pk
columns; the model reuses the value encoding bytes. -/
def memcmpSerialize (r : Row) : Bytes := valueSerializeRow r

/-- `EncodedJoinRow`: a compacted (value-encoded) row together with its match
degree. -/
structure EncodedJoinRow where
  compacted_row : Bytes
  degree : DegreeType
deriving DecidableEq

/-- `JoinRow`: a row with a match degree. -/
structure JoinRow where
  row : Row
  degree : DegreeType
deriving DecidableEq

/-- `JoinRow::encode`: compact the row under the value encoding, keep the
degree. -/
def JoinRow.encode (j : JoinRow) : EncodedJoinRow :=
  { compacted_row := valueSerializeRow j.row, degree := j.degree }

/-- `JoinRow::to_table_rows`: the state-table row together with the degree-table
row built by chaining the projected order key with the degree column. -/
def JoinRow.to_table_rows (j : JoinRow) (state_order_key_indices : List Nat) :
    Row × Row :=
  (j.row, build_degree_row (project j.row state_order_key_indices) j.degree)

/-- Modelled from the spec: `JoinEntryState` (file `join_entry_state.rs`,
outside the given slice) — the per-join-key mapping pk → encoded join row,
ordered by memcomparable pk bytes; embedded as an association list kept sorted
by key. -/
abbrev JoinEntryState := List (PkType × EncodedJoinRow)

/-- Ordered-map insert: place the binding at its sorted position, replacing an
existing binding with the same pk. -/
def JoinEntryState.insert (k : PkType) (v : EncodedJoinRow) :
    JoinEntryState → JoinEntryState
  | [] => [(k, v)]
  | (k0, v0) :: rest =>
    match bytesCmp k k0 with
    | .lt => (k, v) :: (k0, v0) :: rest
    | .eq => (k, v) :: rest
    | .gt => (k0, v0) :: JoinEntryState.insert k v rest

/-- The entry is sorted strictly increasingly by pk bytes (the iteration order
of the ordered map). -/
def entrySorted (e : JoinEntryState) : Prop :=
  e.Pairwise fun a b => bytesCmp a.1 b.1 = .lt

instance decEntrySorted (e : JoinEntryState) : Decidable (entrySorted e) := by
  unfold entrySorted
  infer_instance

/-- Drop the longest prefix whose order keys are strictly below `k` (the
advance step of the right-hand side of the merge). -/
def dropLtKeys (k : PkType) : List (PkType × Row) → List (PkType × Row)
  | [] => []
  | (k0, v0) :: rest =>
    if bytesCmp k0 k = .lt then dropLtKeys k rest else (k0, v0) :: rest

/-- Modelled from the spec: `zip_by_order_key` (file `iter_utils.rs`, outside
the given slice) — merge two order-key-sorted sequences, emitting exactly the
pairs with equal order keys and silently dropping an element of either side
that has no match on the other. -/
def zip_by_order_key :
    List (PkType × Row) → List (PkType × Row) → List (Row × Row)
  | [], _ => []
  | (k1, v1) :: t1, dd =>
    match dropLtKeys k1 dd with
    | [] => []
    | (k2, v2) :: t2 =>
      if bytesCmp k1 k2 = .eq then (v1, v2) :: zip_by_order_key t1 t2
      else zip_by_order_key t1 ((k2, v2) :: t2)

/-- One step of the degree-table branch of `fetch_cached_state`: extract the
trailing degree column of the degree row (a NULL or a non-int64 scalar is a
panic, embedded as `Except.error`) and insert the encoded join row at its
serialized pk. -/
def degreeStep (state_pk_indices : List Nat) (entry_state : JoinEntryState)
    (rd : Row × Row) : Except String JoinEntryState :=
  let pk := memcmpSerialize (project rd.1 state_pk_indices)
  match rd.2.getD (rd.2.length - 1) none with
  | none => .error "degree should not be NULL"
  | some s =>
    match intoInt64 s with
    | none => .error "degree column must be an int64"
    | some v =>
      .ok (JoinEntryState.insert pk
        (JoinRow.encode { row := rd.1, degree := u64OfI64 v }) entry_state)

/-- `JoinHashMap::fetch_cached_state`, with the two materialised per-key
storage iterators passed as arguments (the source collects both iterators into
vectors before zipping).  With the degree table, zip rows and degree rows by
order key; without it, iterate the state table only with degree 0. -/
def fetch_cached_state (need_degree_table : Bool)
    (state_pk_indices : List Nat)
    (table_data degree_table_data : List (PkType × Row)) :
    Except String JoinEntryState :=
  if need_degree_table then
    (zip_by_order_key table_data degree_table_data).foldlM
      (degreeStep state_pk_indices) []
  else
    .ok (table_data.foldl
      (fun entry_state kr =>
        JoinEntryState.insert (memcmpSerialize (project kr.2 state_pk_indices))
          (JoinRow.encode { row := kr.2, degree := 0 }) entry_state)
      [])

/-- A buffered write operation against a state table (the mutation API of
`StateTable`); the committed contents live in external storage. -/
inductive TableOp where
  | insert (row : Row)
  | delete (row : Row)
  | update (old new : Row)
deriving DecidableEq

/-- The locally observable side of one state or degree table handle: its
buffered writes and its current vnode bitmap. -/
structure TableInner where
  writes : List TableOp
  vnodes : List Bool
deriving DecidableEq

/-- The per-side join hash map state: the cache (association list from join
key to the takeable entry wrapper, the inner `none` being the taken state),
the metrics counters, the two table handles and the construction
parameters. -/
structure JoinHashMap (K : Type) where
  cache : List (K × Option JoinEntryState)
  total_lookup_count : Nat
  lookup_miss_count : Nat
  state : TableInner
  degree_state : TableInner
  state_pk_indices : List Nat
  state_order_key_indices : List Nat
  need_degree_table : Bool
deriving DecidableEq

/-- Association-list lookup for the cache. -/
def lookupCache {K A : Type} [DecidableEq K] : List (K × A) → K → Option A
  | [], _ => none
  | (k0, v) :: rest, k => if k = k0 then some v else lookupCache rest k

/-- Association-list put: replace the binding when present, append
otherwise. -/
def putCache {K A : Type} [DecidableEq K] : List (K × A) → K → A → List (K × A)
  | [], k, v => [(k, v)]
  | (k0, v0) :: rest, k, v =>
    if k = k0 then (k, v) :: rest else (k0, v0) :: putCache rest k v

/-- `JoinHashMap::take_state`: count the lookup; on a cache hit take the entry
out of the wrapper (a panic when the slot is already taken); on a miss count
the miss and fetch from storage. -/
def JoinHashMap.take_state {K : Type} [DecidableEq K] (m : JoinHashMap K)
    (key : K) (table_data degree_table_data : List (PkType × Row)) :
    Except String (JoinEntryState × JoinHashMap K) :=
  let m1 := { m with total_lookup_count := m.total_lookup_count + 1 }
  match lookupCache m.cache key with
  | some w =>
    match w with
    | some entry => .ok (entry, { m1 with cache := putCache m1.cache key none })
    | none => .error "the state should always be Some"
  | none =>
    match fetch_cached_state m.need_degree_table m.state_pk_indices
        table_data degree_table_data with
    | .ok entry =>
      .ok (entry, { m1 with lookup_miss_count := m1.lookup_miss_count + 1 })
    | .error e => .error e

/-- `JoinHashMap::update_state`: put the entry back into the cache slot. -/
def JoinHashMap.update_state {K : Type} [DecidableEq K] (m : JoinHashMap K)
    (key : K) (entry : JoinEntryState) : JoinHashMap K :=
  { m with cache := putCache m.cache key (some entry) }

/-- `JoinHashMap::insert`: on a cache hit insert the encoded row into the
in-memory entry (dereferencing a taken wrapper is a panic); always buffer the
row into the state table and the degree row into the degree table. -/
def JoinHashMap.insert {K : Type} [DecidableEq K] (m : JoinHashMap K) (key : K)
    (value : JoinRow) : Except String (JoinHashMap K) :=
  let step1 : Except String (List (K × Option JoinEntryState)) :=
    match lookupCache m.cache key with
    | some (some entry) =>
      let pk := memcmpSerialize (project value.row m.state_pk_indices)
      .ok (putCache m.cache key
        (some (JoinEntryState.insert pk value.encode entry)))
    | some none => .error "the state should always be Some"
    | none => .ok m.cache
  step1.map fun cache =>
    let rows := value.to_table_rows m.state_order_key_indices
    { m with
      cache := cache
      state := { m.state with writes := m.state.writes ++ [TableOp.insert rows.1] }
      degree_state :=
        { m.degree_state with
          writes := m.degree_state.writes ++ [TableOp.insert rows.2] } }

/-- One vnode bitmap is a subset of another. -/
def bitmapSubset (a b : List Bool) : Bool :=
  (List.range (max a.length b.length)).all fun i =>
    !(a.getD i false) || b.getD i false

/-- Modelled from the spec: `cache_may_stale` (the executor cache module,
outside the given slice) — per the spec the predicate holds when the new
bitmap is not a subset of the previous one or the previous one is not a subset
of the new one. -/
def cache_may_stale (previous current : List Bool) : Bool :=
  !bitmapSubset current previous || !bitmapSubset previous current

/-- `JoinHashMap::update_vnode_bitmap`: forward the bitmap to both tables and
clear the cache when it may have become stale. -/
def JoinHashMap.update_vnode_bitmap {K : Type} (m : JoinHashMap K)
    (vnode_bitmap : List Bool) : JoinHashMap K :=
  let previous_vnode_bitmap := m.state.vnodes
  let m2 := { m with
    state := { m.state with vnodes := vnode_bitmap }
    degree_state := { m.degree_state with vnodes := vnode_bitmap } }
  if cache_may_stale previous_vnode_bitmap vnode_bitmap then
    { m2 with cache := [] }
  else m2

/-- `JoinHashMap::manipulate_degree`: build the old degree row, apply the
action to both the encoded and the owned copy, build the new degree row, and
buffer an update on the degree table. -/
def JoinHashMap.manipulate_degree {K : Type} (m : JoinHashMap K)
    (join_row_ref : EncodedJoinRow) (join_row : JoinRow)
    (action : DegreeType → Except String DegreeType) :
    Except String (JoinHashMap K × EncodedJoinRow × JoinRow) := do
  let old_degree := (join_row.to_table_rows m.state_order_key_indices).2
  let d1 ← action join_row_ref.degree
  let d2 ← action join_row.degree
  let join_row_ref2 := { join_row_ref with degree := d1 }
  let join_row2 := { join_row with degree := d2 }
  let new_degree := (join_row2.to_table_rows m.state_order_key_indices).2
  .ok
    ({ m with
        degree_state :=
          { m.degree_state with
            writes := m.degree_state.writes ++
              [TableOp.update old_degree new_degree] } },
      join_row_ref2, join_row2)

/-- `JoinHashMap::inc_degree`: increment both copies. -/
def JoinHashMap.inc_degree {K : Type} (m : JoinHashMap K)
    (join_row_ref : EncodedJoinRow) (join_row : JoinRow) :
    Except String (JoinHashMap K × EncodedJoinRow × JoinRow) :=
  m.manipulate_degree join_row_ref join_row fun d => .ok (d + 1)

/-- `JoinHashMap::dec_degree`: decrement both copies;
`checked_sub(1).expect(..)` panics at degree 0, embedded as
`Except.error`. -/
def JoinHashMap.dec_degree {K : Type} (m : JoinHashMap K)
    (join_row_ref : EncodedJoinRow) (join_row : JoinRow) :
    Except String (JoinHashMap K × EncodedJoinRow × JoinRow) :=
  m.manipulate_degree join_row_ref join_row fun d =>
    if d = 0 then .error "Tried to decrement zero join row degree"
    else .ok (d - 1)

/-- Decidable equality for the panic-embedding `Except` results. -/
instance {e a : Type} [DecidableEq e] [DecidableEq a] :
    DecidableEq (Except e a) := fun x y =>
  match x, y with
  | .ok u, .ok v =>
    if h : u = v then isTrue (h ▸ rfl)
    else isFalse fun hc => h (Except.ok.inj hc)
  | .error u, .error v =>
    if h : u = v then isTrue (h ▸ rfl)
    else isFalse fun hc => h (Except.error.inj hc)
  | .ok _, .error _ => isFalse fun hc => Except.noConfusion hc
  | .error _, .ok _ => isFalse fun hc => Except.noConfusion hc

/-- A storage iterator output is sorted strictly increasingly by order key
(the state table iterates in ascending memcomparable pk order). -/
def keysSorted (l : List (PkType × Row)) : Prop :=
  l.Pairwise fun a b => bytesCmp a.1 b.1 = .lt

instance decKeysSorted (l : List (PkType × Row)) : Decidable (keysSorted l) := by
  unfold keysSorted
  infer_instance

/-- Specification-side lookup of an order key in an iterator output. -/
def lookupByKey : List (PkType × Row) → PkType → Option Row
  | [], _ => none
  | (k0, v) :: rest, k =>
    if bytesCmp k k0 = .eq then some v else lookupByKey rest k

/-- Concrete per-key iterator outputs used by the closed witnesses: the state
row with order key `[1]` is an orphan (TTL removed its degree row), the degree
row with order key `[3]` is an orphan (TTL removed its state row), and order
key `[2]` is matched with degree 3. -/
def sampleTableData : List (PkType × Row) :=
  [([1], [some (.int64 10)]), ([2], [some (.int64 20)])]

/-- The degree-table side of the sample iterator outputs. -/
def sampleDegreeData : List (PkType × Row) :=
  [([2], [some (.int64 20), some (.int64 3)]),
    ([3], [some (.int64 30), some (.int64 1)])]

/-- A small concrete join hash map used by the closed witnesses. -/
def sampleJHM : JoinHashMap Nat :=
  { cache := []
    total_lookup_count := 0
    lookup_miss_count := 0
    state := { writes := [], vnodes := [true, true] }
    degree_state := { writes := [], vnodes := [true, true] }
    state_pk_indices := [0]
    state_order_key_indices := [0]
    need_degree_table := true }

/-- `IntervalUnit`: months, days and milliseconds of an interval value. -/
structure IntervalUnit where
  months : Int
  days : Int
  ms : Int
deriving DecidableEq

/-- `NaiveDateTimeWrapper`, embedded at millisecond resolution as a calendar
date plus the milliseconds within the day. -/
structure NaiveDateTime where
  year : Int
  month : Int
  day : Int
  msOfDay : Int
deriving DecidableEq

/-- `LEAP_DAYS`: month lengths of a leap year, index 0 unused. -/
def LEAP_DAYS : List Int := [0, 31, 29, 31, 30, 31, 30, 31, 31, 30, 31, 30, 31]

/-- `NORMAL_DAYS`: month lengths of a common year, index 0 unused. -/
def NORMAL_DAYS : List Int :=
  [0, 31, 28, 31, 30, 31, 30, 31, 31, 30, 31, 30, 31]

/-- `is_leap_year` (the remainder tests agree between the truncating and the
euclidean remainder when compared with zero). -/
def is_leap_year (year : Int) : Bool :=
  year % 4 == 0 && (year % 100 != 0 || year % 400 == 0)

/-- `get_mouth_days`: the number of days of `year-month` (sic, source
spelling). -/
def get_mouth_days (year : Int) (month : Nat) : Int :=
  if is_leap_year year then LEAP_DAYS.getD month 0 else NORMAL_DAYS.getD month 0

/-- Days since 1970-01-01 of a proleptic-Gregorian date (the standard civil
calendar conversion used to embed the date arithmetic of the chrono
library). -/
def daysFromCivil (y m d : Int) : Int :=
  let y2 := y - (if m ≤ 2 then 1 else 0)
  let era := y2 / 400
  let yoe := y2 - era * 400
  let mp := (m + 9) % 12
  let doy := (153 * mp + 2) / 5 + d - 1
  let doe := yoe * 365 + yoe / 4 - yoe / 100 + doy
  era * 146097 + doe - 719468

/-- The inverse calendar conversion: the date of a days-since-1970 count. -/
def civilFromDays (z0 : Int) : Int × Int × Int :=
  let z := z0 + 719468
  let era := z / 146097
  let doe := z - era * 146097
  let yoe := (doe - doe / 1460 + doe / 36524 - doe / 146096) / 365
  let y := yoe + era * 400
  let doy := doe - (365 * yoe + yoe / 4 - yoe / 100)
  let mp := (5 * doy + 2) / 153
  let dd := doy - (153 * mp + 2) / 5 + 1
  let mm := mp + (if mp < 10 then 3 else -9)
  (y + (if mm ≤ 2 then 1 else 0), mm, dd)

/-- `NaiveDate::from_ymd_opt` of the chrono library: the date when the triple
is a valid proleptic-Gregorian date within the representable year range. -/
def from_ymd_opt (y m d : Int) : Option (Int × Int × Int) :=
  if -262144 ≤ y ∧ y ≤ 262143 ∧ 1 ≤ m ∧ m ≤ 12 ∧ 1 ≤ d ∧
      d ≤ get_mouth_days y m.toNat then
    some (y, m, d)
  else none

/-- The first representable day number of the chrono library. -/
def chronoMinDay : Int := daysFromCivil (-262144) 1 1

/-- The last representable day number of the chrono library. -/
def chronoMaxDay : Int := daysFromCivil 262143 12 31

/-- `checked_add_signed(Duration::days(..))`: shift the date by whole days,
failing outside the representable range. -/
def checked_add_days (t : NaiveDateTime) (days : Int) : Option NaiveDateTime :=
  let dn := daysFromCivil t.year t.month t.day + days
  if chronoMinDay ≤ dn ∧ dn ≤ chronoMaxDay then
    let c := civilFromDays dn
    some { year := c.1, month := c.2.1, day := c.2.2, msOfDay := t.msOfDay }
  else none

/-- `checked_add_signed(Duration::milliseconds(..))`: shift by milliseconds,
renormalising the day and failing outside the representable range. -/
def checked_add_ms (t : NaiveDateTime) (ms : Int) : Option NaiveDateTime :=
  let total := (daysFromCivil t.year t.month t.day) * 86400000 + t.msOfDay + ms
  let dn := total / 86400000
  if chronoMinDay ≤ dn ∧ dn ≤ chronoMaxDay then
    let c := civilFromDays dn
    some { year := c.1, month := c.2.1, day := c.2.2,
           msOfDay := total % 86400000 }
  else none

/-- The month block of `CheckedAdd<IntervalUnit>::checked_add`: the manual
year/month arithmetic with truncating division (`tdiv`, as the source
language divides machine integers), the overflow-month adjustment, and the
day clamp, ending in `from_ymd_opt`. -/
def add_months_code (year month day : Int) (interval_months : Int) :
    Option (Int × Int × Int) :=
  let year_diff := interval_months.tdiv 12
  let year1 := year + year_diff
  let month_diff := interval_months - year_diff * 12
  let month1 := month + month_diff
  let p : Int × Int :=
    if month1 > 12 then (year1 + 1, month1 - 12)
    else if month1 ≤ 0 then (year1 - 1, month1 + 12)
    else (year1, month1)
  let day1 := min day (get_mouth_days p.1 p.2.toNat)
  from_ymd_opt p.1 p.2 day1

/-- `CheckedAdd<IntervalUnit> for NaiveDateTimeWrapper::checked_add`: adjust
the date by months when the interval has any, then add days, then
milliseconds; any failure propagates as `None`. -/
def checked_add (t : NaiveDateTime) (rhs : IntervalUnit) :
    Option NaiveDateTime :=
  (if rhs.months ≠ 0 then add_months_code t.year t.month t.day rhs.months
   else some (t.year, t.month, t.day)).bind fun c =>
    (checked_add_days
        { year := c.1, month := c.2.1, day := c.2.2, msOfDay := t.msOfDay }
        rhs.days).bind fun t2 =>
      checked_add_ms t2 rhs.ms

/-- The specification-side month stage: plain calendar arithmetic on the
linearised month count with floor division, clamping the day to the last
valid day of the resulting month (leap years respected through
`get_mouth_days`). -/
def addMonthsCalendar (t : NaiveDateTime) (months : Int) :
    Option NaiveDateTime :=
  (from_ymd_opt ((12 * t.year + (t.month - 1) + months) / 12)
      ((12 * t.year + (t.month - 1) + months) % 12 + 1)
      (min t.day
        (get_mouth_days ((12 * t.year + (t.month - 1) + months) / 12)
          (((12 * t.year + (t.month - 1) + months) % 12 + 1).toNat)))).map
    fun c => { year := c.1, month := c.2.1, day := c.2.2, msOfDay := t.msOfDay }

/-- A well-formed timestamp: a valid in-range date and a millisecond of day
within one day. -/
def validDateTime (t : NaiveDateTime) : Prop :=
  -262144 ≤ t.year ∧ t.year ≤ 262143 ∧ 1 ≤ t.month ∧ t.month ≤ 12 ∧
    1 ≤ t.day ∧ t.day ≤ get_mouth_days t.year t.month.toNat ∧
    0 ≤ t.msOfDay ∧ t.msOfDay < 86400000

instance decValidDateTime (t : NaiveDateTime) : Decidable (validDateTime t) := by
  unfold validDateTime
  infer_instance

/-- The state table of the source executor, observed through its
read-your-writes view: an association list from the pk string (column 0 of
the two-varchar schema) to the full row. -/
abbrev SourceStateTable := List (Bytes × Row)

/-- One split state as the handler consumes it (`SplitMetaData`): its id and
its `encode_to_bytes` payload. -/
structure SplitState where
  id : Bytes
  bytes : Bytes
deriving DecidableEq

/-- `SourceStateTableHandler::string_to_scalar`. -/
def SourceStateTableHandler.string_to_scalar (s : Bytes) : ScalarImpl :=
  .utf8 s

/-- `SourceStateTableHandler::get`: read the row stored under the split
id. -/
def SourceStateTableHandler.get (t : SourceStateTable) (key : Bytes) :
    Option Row :=
  lookupCache t key

/-- `SourceStateTableHandler::set`: build the two-varchar row and either
update the existing row under the id or insert a fresh one. -/
def SourceStateTableHandler.set (t : SourceStateTable) (key value : Bytes) :
    SourceStateTable :=
  let row : Row := [some (SourceStateTableHandler.string_to_scalar key),
    some (SourceStateTableHandler.string_to_scalar value)]
  match SourceStateTableHandler.get t key with
  | some _ => putCache t key row
  | none => t ++ [(key, row)]

/-- `SourceStateTableHandler::take_snapshot`: empty input is an error
(`bail`) leaving the table untouched; otherwise every split is upserted in
order. -/
def SourceStateTableHandler.take_snapshot (t : SourceStateTable)
    (states : List SplitState) : Except String Unit × SourceStateTable :=
  if states.isEmpty then (.error "states require not null", t)
  else
    (.ok (),
      states.foldl (fun t2 s => SourceStateTableHandler.set t2 s.id s.bytes) t)

theorem scalarPCmp_of_compat {a b : ScalarImpl} (h : scalarCompat a b = true) :
    scalarPCmp a b = some (scalarCmpT a b) := by
  cases a <;> cases b <;> simp_all [scalarCompat, scalarPCmp, scalarCmpT]

theorem datumPCmp_of_compat {a b : Datum} (h : datumCompat a b = true) :
    datumPCmp a b = some (datumCmpT a b) := by
  cases a <;> cases b <;>
    simp_all [datumCompat, datumPCmp, datumCmpT, scalarPCmp_of_compat]

theorem datumsPCmp_of_compat :
    ∀ {a b : List Datum}, rowsCompat a b = true →
      datumsPCmp a b = some (lexCmp a b)
  | [], [], _ => rfl
  | x :: xs, y :: ys, h => by
    simp only [rowsCompat, Bool.and_eq_true] at h
    simp only [datumsPCmp, lexCmp, datumPCmp_of_compat h.1]
    cases hxy : datumCmpT x y <;>
      simp [datumsPCmp_of_compat h.2]

theorem rowsCompat_length :
    ∀ {a b : Row}, rowsCompat a b = true → a.length = b.length
  | [], [], _ => rfl
  | _ :: xs, _ :: ys, h => by
    simp only [rowsCompat, Bool.and_eq_true] at h
    simp [rowsCompat_length h.2]

theorem readLE_uintLE :
    ∀ (w v : Nat), v < 2 ^ (8 * w) → ∀ rest,
      readLE w (uintLE w v ++ rest) = some (v, rest)
  | 0, v, h, rest => by
    interval_cases v
    rfl
  | w + 1, v, h, rest => by
    have hdiv : v / 256 < 2 ^ (8 * w) := by
      rw [Nat.div_lt_iff_lt_mul (by norm_num)]
      calc v < 2 ^ (8 * (w + 1)) := h
        _ = 2 ^ (8 * w) * 256 := by ring
    simp only [uintLE, readLE, List.cons_append, List.append_eq]
    rw [readLE_uintLE w (v / 256) hdiv rest]
    simp only [Option.map_some']
    have hmod : v % 256 + 256 * (v / 256) = v := Nat.mod_add_div v 256
    rw [hmod]

theorem fromUnsigned_toUnsigned16 (v : Int)
    (h1 : -(2 : Int) ^ 15 ≤ v) (h2 : v < 2 ^ 15) :
    fromUnsigned 16 (toUnsigned 16 v) = v ∧ toUnsigned 16 v < 2 ^ 16 := by
  simp only [fromUnsigned, toUnsigned]
  norm_num at h1 h2 ⊢
  omega

theorem fromUnsigned_toUnsigned32 (v : Int)
    (h1 : -(2 : Int) ^ 31 ≤ v) (h2 : v < 2 ^ 31) :
    fromUnsigned 32 (toUnsigned 32 v) = v ∧ toUnsigned 32 v < 2 ^ 32 := by
  simp only [fromUnsigned, toUnsigned]
  norm_num at h1 h2 ⊢
  omega

theorem fromUnsigned_toUnsigned64 (v : Int)
    (h1 : -(2 : Int) ^ 63 ≤ v) (h2 : v < 2 ^ 63) :
    fromUnsigned 64 (toUnsigned 64 v) = v ∧ toUnsigned 64 v < 2 ^ 64 := by
  simp only [fromUnsigned, toUnsigned]
  norm_num at h1 h2 ⊢
  omega

theorem deserializeScalar_serializeScalar {s : ScalarImpl} {t : DataType}
    (h : scalarMatches s t = true) (rest : Bytes) :
    deserializeScalar t (serializeScalar s ++ rest) = some (s, rest) := by
  cases s <;> cases t <;>
    simp only [scalarMatches, Bool.and_eq_true, decide_eq_true_eq] at h <;>
    try exact absurd h (by decide)
  case bool.boolean b =>
    cases b <;> simp [serializeScalar, deserializeScalar]
  case int16.int16 v =>
    have hr := fromUnsigned_toUnsigned16 v h.1 h.2
    simp [serializeScalar, deserializeScalar,
      readLE_uintLE 2 (toUnsigned 16 v) (by exact_mod_cast hr.2) rest, hr.1]
  case int32.int32 v =>
    have hr := fromUnsigned_toUnsigned32 v h.1 h.2
    simp [serializeScalar, deserializeScalar,
      readLE_uintLE 4 (toUnsigned 32 v) (by exact_mod_cast hr.2) rest, hr.1]
  case int64.int64 v =>
    have hr := fromUnsigned_toUnsigned64 v h.1 h.2
    simp [serializeScalar, deserializeScalar,
      readLE_uintLE 8 (toUnsigned 64 v) (by exact_mod_cast hr.2) rest, hr.1]
  case utf8.varchar s =>
    have hlen : s.length < 2 ^ (8 * 4) := by norm_num; exact h.1
    simp only [serializeScalar, deserializeScalar, List.append_assoc,
      readLE_uintLE 4 s.length hlen (s ++ rest), Option.some_bind]
    rw [if_pos (by simp)]
    simp

theorem deserializeDatum_serializeDatum {d : Datum} {t : DataType}
    (h : datumMatches d t = true) (rest : Bytes) :
    deserializeDatum t (serializeDatum d ++ rest) = some (d, rest) := by
  cases d with
  | none => simp [serializeDatum, deserializeDatum]
  | some s =>
    simp only [datumMatches] at h
    simp [serializeDatum, deserializeDatum,
      deserializeScalar_serializeScalar h rest]

theorem deserializeDatums_serialize :
    ∀ {r : Row} {ts : List DataType}, rowMatches r ts = true → ∀ rest,
      deserializeDatums ts (valueSerializeRow r ++ rest) = some (r, rest)
  | [], [], _, rest => rfl
  | d :: ds, t :: ts, h, rest => by
    simp only [rowMatches, Bool.and_eq_true] at h
    simp only [valueSerializeRow, List.map_cons, List.flatten_cons,
      List.append_assoc]
    simp only [deserializeDatums,
      deserializeDatum_serializeDatum h.1 (List.flatten (List.map serializeDatum ds) ++ rest),
      Option.bind_some]
    have := @deserializeDatums_serialize ds ts h.2 rest
    simp only [valueSerializeRow] at this
    simp [this]

/-- C6: value-encoding round trip — for every row and the schema matching its
datum types, deserialising the value-encoded bytes of the row with a
`RowDeserializer` over that schema reproduces the row exactly. -/
theorem value_encoding_roundtrip (r : Row) (ts : List DataType)
    (h : rowMatches r ts = true) :
    rowDeserialize ts (valueSerializeRow r) = some r := by
  have := deserializeDatums_serialize h []
  rw [List.append_nil] at this
  simp [rowDeserialize, this]

/-- Closed witness for C6 at a concrete row covering every modelled type. -/
theorem value_encoding_roundtrip_witness :
    rowMatches
        [some (.utf8 [104, 105]), some (.bool true), some (.int16 (-1)),
          some (.int32 2), some (.int64 (-3)), none]
        [.varchar, .boolean, .int16, .int32, .int64, .int64] = true ∧
      rowDeserialize [.varchar, .boolean, .int16, .int32, .int64, .int64]
          (valueSerializeRow
            [some (.utf8 [104, 105]), some (.bool true), some (.int16 (-1)),
              some (.int32 2), some (.int64 (-3)), none]) =
        some
          [some (.utf8 [104, 105]), some (.bool true), some (.int16 (-1)),
            some (.int32 2), some (.int64 (-3)), none] :=
  ⟨by decide, value_encoding_roundtrip _ _ (by decide)⟩

/-- C7: row comparison is defined for rows of a common schema, where it is
element-wise lexicographic; for rows of unequal length the part comparison
yields no ordering and the total comparison panics. -/
theorem row_compare_defined_iff_equal_length (a b : Row) :
    (rowsCompat a b = true →
      rowPCmp a b = some (lexCmp a b) ∧ rowCmpTotal a b = .ok (lexCmp a b)) ∧
    (a.length ≠ b.length →
      rowPCmp a b = none ∧
        rowCmpTotal a b = .error "cannot compare rows with different lengths") := by
  constructor
  · intro h
    have hl := rowsCompat_length h
    have hc := datumsPCmp_of_compat h
    refine ⟨by simp [rowPCmp, hl, hc], ?_⟩
    simp [rowCmpTotal, rowPCmp, hl, hc]
  · intro h
    refine ⟨by simp [rowPCmp, h], ?_⟩
    simp [rowCmpTotal, rowPCmp, h]

/-- Closed witness for C7: a comparable pair and a length-mismatched pair. -/
theorem row_compare_witness :
    rowPCmp [some (.int32 1)] [some (.int32 2)] = some .lt ∧
      rowCmpTotal [some (.int32 1)] [] =
        .error "cannot compare rows with different lengths" := by
  constructor
  · have h :=
      ((row_compare_defined_iff_equal_length [some (.int32 1)]
            [some (.int32 2)]).1 (by decide)).1
    rw [h]
    decide
  · exact ((row_compare_defined_iff_equal_length [some (.int32 1)] []).2
      (by decide)).2

theorem getD_append_singleton (xs : List Datum) (x : Datum) :
    (xs ++ [x]).getD xs.length none = x := by
  induction xs with
  | nil => rfl
  | cons y ys ih => simp [ih]

/-- C9: the persisted degree round-trips through the signed int64 column — for
every degree below `2 ^ 63`, building the degree row stores it as `Int64` and
the fetch path reading the trailing column back as `u64` recovers it
exactly. -/
theorem degree_int64_roundtrip (order_key : Row) (d : DegreeType)
    (h : d < 2 ^ 63) :
    readDegree (build_degree_row order_key d) = some d := by
  simp only [readDegree, build_degree_row]
  have hlen :
      (order_key ++ [some (ScalarImpl.int64 (i64OfU64 d))]).length - 1 =
        order_key.length := by
    simp
  rw [hlen,
    getD_append_singleton order_key (some (ScalarImpl.int64 (i64OfU64 d)))]
  simp only [Option.some_bind, intoInt64, Option.map_some', Option.some.injEq]
  simp only [u64OfI64, i64OfU64]
  have key : ∀ n : Nat, n < 2 ^ 63 →
      ((((n : Int) + 2 ^ 63) % 2 ^ 64 - 2 ^ 63) % 2 ^ 64).toNat = n := by
    intro n hn
    norm_num at hn ⊢
    omega
  exact key d h

/-- Closed witness for C9 at degree 5. -/
theorem degree_int64_roundtrip_witness :
    5 < 2 ^ 63 ∧
      readDegree (build_degree_row [some (.int32 7)] 5) = some 5 :=
  ⟨by norm_num, degree_int64_roundtrip [some (.int32 7)] 5 (by norm_num)⟩

theorem bytesCmp_eq_iff : ∀ {a b : Bytes}, bytesCmp a b = .eq ↔ a = b
  | [], [] => by simp [bytesCmp]
  | [], _ :: _ => by simp [bytesCmp]
  | _ :: _, [] => by simp [bytesCmp]
  | x :: xs, y :: ys => by
    simp only [bytesCmp]
    cases hxy : compare x y with
    | lt =>
      have : x ≠ y := Nat.ne_of_lt (Nat.compare_eq_lt.mp hxy)
      simp [this]
    | gt =>
      have : x ≠ y := (Nat.ne_of_lt (Nat.compare_eq_gt.mp hxy)).symm
      simp [this]
    | eq =>
      have hx : x = y := Nat.compare_eq_eq.mp hxy
      simp [hx, @bytesCmp_eq_iff xs ys]

theorem bytesCmp_gt_iff : ∀ {a b : Bytes}, bytesCmp a b = .gt ↔ bytesCmp b a = .lt
  | [], [] => by simp [bytesCmp]
  | [], _ :: _ => by simp [bytesCmp]
  | _ :: _, [] => by simp [bytesCmp]
  | x :: xs, y :: ys => by
    simp only [bytesCmp]
    cases hxy : compare x y with
    | lt =>
      have h1 : compare y x = .gt := Nat.compare_eq_gt.mpr (Nat.compare_eq_lt.mp hxy)
      simp [h1]
    | gt =>
      have h1 : compare y x = .lt := Nat.compare_eq_lt.mpr (Nat.compare_eq_gt.mp hxy)
      simp [h1]
    | eq =>
      have hx : x = y := Nat.compare_eq_eq.mp hxy
      have h1 : compare y x = .eq := Nat.compare_eq_eq.mpr hx.symm
      simp [h1, @bytesCmp_gt_iff xs ys]

theorem bytesCmp_lt_trans :
    ∀ {a b c : Bytes}, bytesCmp a b = .lt → bytesCmp b c = .lt →
      bytesCmp a c = .lt
  | [], [], _, h1, _ => by simp [bytesCmp] at h1
  | [], _ :: _, [], _, h2 => by simp [bytesCmp] at h2
  | [], _ :: _, _ :: _, _, _ => by simp [bytesCmp]
  | _ :: _, [], _, h1, _ => by simp [bytesCmp] at h1
  | _ :: _, _ :: _, [], _, h2 => by simp [bytesCmp] at h2
  | x :: xs, y :: ys, z :: zs, h1, h2 => by
    simp only [bytesCmp] at h1 h2 ⊢
    cases hxy : compare x y with
    | gt => rw [hxy] at h1; simp at h1
    | lt =>
      rw [hxy] at h1
      cases hyz : compare y z with
      | gt => rw [hyz] at h2; simp at h2
      | lt =>
        have : compare x z = .lt :=
          Nat.compare_eq_lt.mpr
            (lt_trans (Nat.compare_eq_lt.mp hxy) (Nat.compare_eq_lt.mp hyz))
        rw [this]
      | eq =>
        have : compare x z = .lt := by
          rw [← Nat.compare_eq_eq.mp hyz]
          exact hxy
        rw [this]
    | eq =>
      rw [hxy] at h1
      have hx : x = y := Nat.compare_eq_eq.mp hxy
      cases hyz : compare y z with
      | gt => rw [hyz] at h2; simp at h2
      | lt =>
        have : compare x z = .lt := by rw [hx]; exact hyz
        rw [this]
      | eq =>
        rw [hyz] at h2
        have : compare x z = .eq := by
          rw [hx]
          exact hyz
        rw [this]
        exact bytesCmp_lt_trans h1 h2

theorem mem_insert_entry {k : PkType} {v : EncodedJoinRow} :
    ∀ {l : JoinEntryState} {x}, x ∈ JoinEntryState.insert k v l →
      x = (k, v) ∨ x ∈ l := by
  intro l
  induction l with
  | nil =>
    intro x h
    simp only [JoinEntryState.insert, List.mem_singleton] at h
    exact Or.inl h
  | cons kv0 rest ih =>
    intro x h
    obtain ⟨k0, v0⟩ := kv0
    simp only [JoinEntryState.insert] at h
    split at h
    · rcases List.mem_cons.mp h with rfl | h
      · exact Or.inl rfl
      · exact Or.inr h
    · rcases List.mem_cons.mp h with rfl | h
      · exact Or.inl rfl
      · exact Or.inr (List.mem_cons_of_mem _ h)
    · rcases List.mem_cons.mp h with rfl | h
      · exact Or.inr (List.mem_cons_self _ _)
      · rcases ih h with h1 | h1
        · exact Or.inl h1
        · exact Or.inr (List.mem_cons_of_mem _ h1)

theorem entrySorted_insert (k : PkType) (v : EncodedJoinRow) :
    ∀ {l : JoinEntryState}, entrySorted l →
      entrySorted (JoinEntryState.insert k v l) := by
  intro l
  induction l with
  | nil =>
    intro _
    simp [JoinEntryState.insert, entrySorted]
  | cons kv0 rest ih =>
    intro h
    obtain ⟨k0, v0⟩ := kv0
    rw [entrySorted, List.pairwise_cons] at h
    obtain ⟨h0, hrest⟩ := h
    simp only [JoinEntryState.insert]
    split
    · rename_i hc
      rw [entrySorted, List.pairwise_cons]
      refine ⟨?_, ?_⟩
      · intro x hx
        rcases List.mem_cons.mp hx with rfl | hx
        · exact hc
        · exact bytesCmp_lt_trans hc (h0 x hx)
      · rw [List.pairwise_cons]
        exact ⟨h0, hrest⟩
    · rename_i hc
      have hk : k = k0 := bytesCmp_eq_iff.mp hc
      rw [entrySorted, List.pairwise_cons]
      refine ⟨?_, hrest⟩
      intro x hx
      rw [hk]
      exact h0 x hx
    · rename_i hc
      rw [entrySorted, List.pairwise_cons]
      refine ⟨?_, ih hrest⟩
      intro x hx
      rcases mem_insert_entry hx with rfl | hx
      · exact bytesCmp_gt_iff.mp hc
      · exact h0 x hx

theorem foldlM_ok_preserve {α β : Type} (P : β → Prop)
    (step : β → α → Except String β)
    (hstep : ∀ b a b', P b → step b a = .ok b' → P b') :
    ∀ (l : List α) (b : β), P b → ∀ {b'}, l.foldlM step b = .ok b' → P b' := by
  intro l
  induction l with
  | nil =>
    intro b hb b' h
    simp only [List.foldlM_nil] at h
    cases h
    exact hb
  | cons a l ih =>
    intro b hb b' h
    rw [List.foldlM_cons] at h
    cases hs : step b a with
    | error e =>
      rw [hs] at h
      rw [show (Except.error e >>= fun b2 => l.foldlM step b2) =
        (Except.error e : Except String β) from rfl] at h
      cases h
    | ok b1 =>
      rw [hs] at h
      rw [show (Except.ok b1 >>= fun b2 => l.foldlM step b2) =
        l.foldlM step b1 from rfl] at h
      exact ih b1 (hstep b a b1 hb hs) h

theorem entrySorted_foldl {α : Type} (f : α → PkType) (g : α → EncodedJoinRow) :
    ∀ (l : List α) (init : JoinEntryState), entrySorted init →
      entrySorted
        (l.foldl (fun st x => JoinEntryState.insert (f x) (g x) st) init) := by
  intro l
  induction l with
  | nil => intro init h; exact h
  | cons a l ih =>
    intro init h
    rw [List.foldl_cons]
    exact ih _ (entrySorted_insert _ _ h)

theorem mem_entry_foldl {α : Type} (f : α → PkType) (g : α → EncodedJoinRow) :
    ∀ (l : List α) (init : JoinEntryState) (kv),
      kv ∈ l.foldl (fun st x => JoinEntryState.insert (f x) (g x) st) init →
      kv ∈ init ∨ ∃ x ∈ l, kv = (f x, g x) := by
  intro l
  induction l with
  | nil => intro init kv h; exact Or.inl h
  | cons a l ih =>
    intro init kv h
    rw [List.foldl_cons] at h
    rcases ih _ kv h with h1 | h1
    · rcases mem_insert_entry h1 with rfl | h1
      · exact Or.inr ⟨a, List.mem_cons_self _ _, rfl⟩
      · exact Or.inl h1
    · obtain ⟨x, hx, hkv⟩ := h1
      exact Or.inr ⟨x, List.mem_cons_of_mem _ hx, hkv⟩

theorem degreeStep_preserves_sorted (state_pk_indices : List Nat)
    (b : JoinEntryState) (rd : Row × Row) (b' : JoinEntryState)
    (hb : entrySorted b) (h : degreeStep state_pk_indices b rd = .ok b') :
    entrySorted b' := by
  simp only [degreeStep] at h
  split at h
  · cases h
  · split at h
    · cases h
    · simp only [Except.ok.injEq] at h
      exact h ▸ entrySorted_insert _ _ hb

theorem fetch_cached_state_sorted (need_degree_table : Bool)
    (state_pk_indices : List Nat) (td dd : List (PkType × Row))
    (entry : JoinEntryState)
    (h : fetch_cached_state need_degree_table state_pk_indices td dd =
      .ok entry) : entrySorted entry := by
  cases need_degree_table with
  | true =>
    rw [fetch_cached_state, if_pos rfl] at h
    exact foldlM_ok_preserve entrySorted (degreeStep state_pk_indices)
      (degreeStep_preserves_sorted state_pk_indices)
      (zip_by_order_key td dd) [] (by simp [entrySorted]) h
  | false =>
    rw [fetch_cached_state, if_neg (by simp)] at h
    simp only [Except.ok.injEq] at h
    exact h ▸ entrySorted_foldl
      (fun kr => memcmpSerialize (project kr.2 state_pk_indices))
      (fun kr => JoinRow.encode { row := kr.2, degree := 0 }) td []
      (by simp [entrySorted])

/-- C1: `take_state` increments the total-lookup counter on every call; on a
cache hit it returns the cached entry leaving the slot in the taken state; on
a miss it additionally increments the lookup-miss counter and fetches from
storage, the fetched entry being populated in pk order and empty when nothing
is stored for the key. -/
theorem take_state_spec {K : Type} [DecidableEq K] (m : JoinHashMap K)
    (key : K) (table_data degree_table_data : List (PkType × Row)) :
    (∀ entry, lookupCache m.cache key = some (some entry) →
      m.take_state key table_data degree_table_data =
        .ok (entry,
          { m with
              total_lookup_count := m.total_lookup_count + 1
              cache := putCache m.cache key none })) ∧
    (lookupCache m.cache key = none →
      m.take_state key table_data degree_table_data =
        (fetch_cached_state m.need_degree_table m.state_pk_indices table_data
            degree_table_data).map
          fun entry =>
            (entry,
              { m with
                  total_lookup_count := m.total_lookup_count + 1
                  lookup_miss_count := m.lookup_miss_count + 1 })) ∧
    (∀ entry,
      fetch_cached_state m.need_degree_table m.state_pk_indices table_data
          degree_table_data = .ok entry → entrySorted entry) ∧
    (fetch_cached_state m.need_degree_table m.state_pk_indices [] [] =
      .ok []) := by
  refine ⟨?_, ?_, ?_, ?_⟩
  · intro entry h
    simp [JoinHashMap.take_state, h]
  · intro h
    simp only [JoinHashMap.take_state, h]
    cases hf : fetch_cached_state m.need_degree_table m.state_pk_indices
        table_data degree_table_data with
    | error e => simp [Except.map]
    | ok entry => simp [Except.map]
  · intro entry h
    exact fetch_cached_state_sorted _ _ _ _ _ h
  · cases hndt : m.need_degree_table with
    | true =>
      rw [fetch_cached_state, if_pos rfl]
      have hz : zip_by_order_key [] [] = [] := by
        simp [zip_by_order_key]
      rw [hz]
      rfl
    | false =>
      rw [fetch_cached_state, if_neg (by simp)]
      rfl

/-- Closed witness for C1: a hit on a one-entry cache and a miss on the empty
cache over empty storage. -/
theorem take_state_spec_witness :
    (JoinHashMap.take_state
        { sampleJHM with
            cache := [(0, some [([1], { compacted_row := [], degree := 2 })])] }
        0 [] []) =
      .ok ([([1], { compacted_row := [], degree := 2 })],
        { sampleJHM with
            cache := [(0, (none : Option JoinEntryState))]
            total_lookup_count := 1 }) ∧
    JoinHashMap.take_state sampleJHM 0 [] [] =
      .ok ([],
        { sampleJHM with total_lookup_count := 1, lookup_miss_count := 1 }) := by
  constructor
  · have h :=
      (take_state_spec
          { sampleJHM with
              cache := [(0, some [([1], { compacted_row := [], degree := 2 })])] }
          0 [] []).1
        [([1], { compacted_row := [], degree := 2 })] (by decide)
    exact h.trans (by decide)
  · have h := (take_state_spec sampleJHM 0 [] []).2.1 (by decide)
    exact h.trans (by decide)

/-- C2: `dec_degree` never drops below 0 — at degree 0 it is a fatal
invariant violation (panic); at degree d + 1 it decrements both the encoded
copy and the owned copy to d and buffers an update from the old degree row to
the new degree row on the degree table. -/
theorem dec_degree_spec {K : Type} (m : JoinHashMap K)
    (join_row_ref : EncodedJoinRow) (join_row : JoinRow)
    (h : join_row_ref.degree = join_row.degree) :
    (join_row.degree = 0 →
      m.dec_degree join_row_ref join_row =
        .error "Tried to decrement zero join row degree") ∧
    ∀ d, join_row.degree = d + 1 →
      m.dec_degree join_row_ref join_row =
        .ok
          ({ m with
              degree_state :=
                { m.degree_state with
                  writes := m.degree_state.writes ++
                    [TableOp.update
                      (build_degree_row
                        (project join_row.row m.state_order_key_indices)
                        (d + 1))
                      (build_degree_row
                        (project join_row.row m.state_order_key_indices) d)] } },
            { join_row_ref with degree := d },
            { join_row with degree := d }) := by
  constructor
  · intro h0
    rw [h0] at h
    simp only [JoinHashMap.dec_degree, JoinHashMap.manipulate_degree, h, h0,
      if_pos rfl]
    rfl
  · intro d hd
    rw [hd] at h
    simp only [JoinHashMap.dec_degree, JoinHashMap.manipulate_degree, h, hd,
      JoinRow.to_table_rows, if_neg (Nat.succ_ne_zero d)]
    rfl

/-- Closed witness for C2: degree 0 panics, degree 1 decrements to 0. -/
theorem dec_degree_spec_witness :
    JoinHashMap.dec_degree sampleJHM { compacted_row := [], degree := 0 }
        { row := [some (.int64 3)], degree := 0 } =
      .error "Tried to decrement zero join row degree" ∧
    JoinHashMap.dec_degree sampleJHM { compacted_row := [], degree := 1 }
        { row := [some (.int64 3)], degree := 1 } =
      .ok
        ({ sampleJHM with
            degree_state :=
              { sampleJHM.degree_state with
                writes := sampleJHM.degree_state.writes ++
                  [TableOp.update
                    (build_degree_row
                      (project [some (.int64 3)]
                        sampleJHM.state_order_key_indices) 1)
                    (build_degree_row
                      (project [some (.int64 3)]
                        sampleJHM.state_order_key_indices) 0)] } },
          { compacted_row := [], degree := 0 },
          { row := [some (.int64 3)], degree := 0 }) := by
  constructor
  · exact (dec_degree_spec sampleJHM _ _ rfl).1 rfl
  · exact (dec_degree_spec sampleJHM _ _ rfl).2 0 rfl

/-- C5: `update_vnode_bitmap` forwards the new bitmap to both tables and
clears the cache exactly when `cache_may_stale` holds of the previous and the
new bitmap; in particular after a strict shrink the cache is empty, so no
cached entry survives. -/
theorem update_vnode_bitmap_spec {K : Type} (m : JoinHashMap K)
    (b : List Bool) :
    ((m.update_vnode_bitmap b).state.vnodes = b ∧
      (m.update_vnode_bitmap b).degree_state.vnodes = b) ∧
    (cache_may_stale m.state.vnodes b = true →
      (m.update_vnode_bitmap b).cache = []) ∧
    (cache_may_stale m.state.vnodes b = false →
      (m.update_vnode_bitmap b).cache = m.cache) ∧
    (bitmapSubset b m.state.vnodes = true →
      bitmapSubset m.state.vnodes b = false →
      (m.update_vnode_bitmap b).cache = []) := by
  refine ⟨⟨?_, ?_⟩, ?_, ?_, ?_⟩ <;>
    simp only [JoinHashMap.update_vnode_bitmap]
  · split <;> rfl
  · split <;> rfl
  · intro h
    rw [if_pos h]
  · intro h
    rw [if_neg (by simp [h])]
  · intro h1 h2
    rw [if_pos (by simp [cache_may_stale, h2])]

/-- Closed witness for C5: shrinking from two owned vnodes to one clears a
non-empty cache and forwards the bitmap to both tables. -/
theorem update_vnode_bitmap_spec_witness :
    (JoinHashMap.update_vnode_bitmap
        { sampleJHM with cache := [(1, some [])] } [true, false]).cache = [] ∧
    (JoinHashMap.update_vnode_bitmap
        { sampleJHM with cache := [(1, some [])] }
        [true, false]).state.vnodes = [true, false] := by
  constructor
  · exact (update_vnode_bitmap_spec
        { sampleJHM with cache := [(1, some [])] } [true, false]).2.2.2
      (by decide) (by decide)
  · exact (update_vnode_bitmap_spec
        { sampleJHM with cache := [(1, some [])] } [true, false]).1.1

theorem dropLtKeys_split (k : PkType) :
    ∀ (dd : List (PkType × Row)), ∃ pre,
      dd = pre ++ dropLtKeys k dd ∧ ∀ x ∈ pre, bytesCmp x.1 k = .lt := by
  intro dd
  induction dd with
  | nil => exact ⟨[], rfl, by simp⟩
  | cons kv rest ih =>
    obtain ⟨k0, v0⟩ := kv
    by_cases h : bytesCmp k0 k = .lt
    · obtain ⟨pre, hpre, hall⟩ := ih
      refine ⟨(k0, v0) :: pre, ?_, ?_⟩
      · simp only [dropLtKeys, if_pos h, List.cons_append]
        rw [← hpre]
      · intro x hx
        rcases List.mem_cons.mp hx with rfl | hx
        · exact h
        · exact hall x hx
    · refine ⟨[], ?_, by simp⟩
      simp [dropLtKeys, if_neg h]

theorem dropLtKeys_head_not_lt (k : PkType) :
    ∀ (dd : List (PkType × Row)) {k2 v2 t2},
      dropLtKeys k dd = (k2, v2) :: t2 → ¬bytesCmp k2 k = .lt := by
  intro dd
  induction dd with
  | nil => intro k2 v2 t2 h; simp [dropLtKeys] at h
  | cons kv rest ih =>
    intro k2 v2 t2 h
    obtain ⟨k0, v0⟩ := kv
    by_cases h0 : bytesCmp k0 k = .lt
    · rw [dropLtKeys, if_pos h0] at h
      exact ih h
    · rw [dropLtKeys, if_neg h0] at h
      cases h
      exact h0

theorem lookupByKey_skip {k : PkType} :
    ∀ {pre suf : List (PkType × Row)},
      (∀ x ∈ pre, ¬bytesCmp k x.1 = .eq) →
      lookupByKey (pre ++ suf) k = lookupByKey suf k := by
  intro pre
  induction pre with
  | nil => intro suf _; rfl
  | cons kv rest ih =>
    intro suf hall
    obtain ⟨k0, v0⟩ := kv
    rw [List.cons_append, lookupByKey,
      if_neg (hall (k0, v0) (List.mem_cons_self _ _))]
    exact ih fun x hx => hall x (List.mem_cons_of_mem _ hx)

theorem lookupByKey_none {k : PkType} :
    ∀ {l : List (PkType × Row)}, (∀ x ∈ l, ¬bytesCmp k x.1 = .eq) →
      lookupByKey l k = none := by
  intro l
  induction l with
  | nil => intro _; rfl
  | cons kv rest ih =>
    intro hall
    obtain ⟨k0, v0⟩ := kv
    rw [lookupByKey, if_neg (hall (k0, v0) (List.mem_cons_self _ _))]
    exact ih fun x hx => hall x (List.mem_cons_of_mem _ hx)

theorem not_eq_of_lt {a b : Bytes} (h : bytesCmp a b = .lt) :
    ¬bytesCmp a b = .eq := by
  rw [h]
  decide

theorem not_eq_of_gt {a b : Bytes} (h : bytesCmp b a = .lt) :
    ¬bytesCmp a b = .eq := by
  intro hc
  rw [bytesCmp_eq_iff.mp hc] at h
  have : bytesCmp b b = .eq := bytesCmp_eq_iff.mpr rfl
  rw [this] at h
  cases h

theorem zip_by_order_key_eq_filterMap :
    ∀ (td dd : List (PkType × Row)), keysSorted td → keysSorted dd →
      zip_by_order_key td dd =
        td.filterMap fun kr => (lookupByKey dd kr.1).map fun w => (kr.2, w) := by
  intro td
  induction td with
  | nil => intro dd _ _; rfl
  | cons kv t1 ih =>
    intro dd htd hdd
    obtain ⟨k1, v1⟩ := kv
    rw [keysSorted, List.pairwise_cons] at htd
    obtain ⟨ht1head, ht1⟩ := htd
    obtain ⟨pre, hsplit, hpre⟩ := dropLtKeys_split k1 dd
    have hlook1 : lookupByKey dd k1 = lookupByKey (dropLtKeys k1 dd) k1 := by
      conv_lhs => rw [hsplit]
      exact lookupByKey_skip fun x hx => not_eq_of_gt (hpre x hx)
    have hddsuf : keysSorted (dropLtKeys k1 dd) := by
      have h2 : List.Pairwise (fun a b => bytesCmp a.1 b.1 = .lt)
          (pre ++ dropLtKeys k1 dd) := by
        rw [← hsplit]
        exact hdd
      exact (List.pairwise_append.mp h2).2.1
    cases hdrop : dropLtKeys k1 dd with
    | nil =>
      have hall : ∀ x ∈ dd, bytesCmp x.1 k1 = .lt := by
        intro x hx
        apply hpre
        rw [hsplit, hdrop, List.append_nil] at hx
        exact hx
      simp only [zip_by_order_key, hdrop]
      symm
      apply List.filterMap_eq_nil_iff.mpr
      intro a ha
      rcases List.mem_cons.mp ha with rfl | ha
      · rw [lookupByKey_none fun x hx => not_eq_of_gt (hall x hx)]
        rfl
      · have hgt : ∀ x ∈ dd, bytesCmp x.1 a.1 = .lt := fun x hx =>
          bytesCmp_lt_trans (hall x hx) (ht1head a ha)
        rw [lookupByKey_none fun x hx => not_eq_of_gt (hgt x hx)]
        rfl
    | cons kv2 t2 =>
      obtain ⟨k2, v2⟩ := kv2
      have hk2 : ¬bytesCmp k2 k1 = .lt := dropLtKeys_head_not_lt k1 dd hdrop
      have hsuf : keysSorted ((k2, v2) :: t2) := hdrop ▸ hddsuf
      have hsuf2 := hsuf
      rw [keysSorted, List.pairwise_cons] at hsuf2
      obtain ⟨ht2head, ht2⟩ := hsuf2
      have hddform : dd = (pre ++ [(k2, v2)]) ++ t2 := by
        rw [hsplit, hdrop, ← List.append_cons]
      by_cases heq : bytesCmp k1 k2 = .eq
      · have hk12 : k1 = k2 := bytesCmp_eq_iff.mp heq
        simp only [zip_by_order_key, hdrop, if_pos heq]
        have hlv : lookupByKey dd k1 = some v2 := by
          rw [hlook1, hdrop, lookupByKey, if_pos heq]
        have hf : (fun kr : PkType × Row =>
            (lookupByKey dd kr.1).map fun w => (kr.2, w)) (k1, v1) =
            some (v1, v2) := by
          simp [hlv]
        rw [@List.filterMap_cons_some (PkType × Row) (Row × Row)
          (fun kr => (lookupByKey dd kr.1).map fun w => (kr.2, w))
          (k1, v1) t1 (v1, v2) hf]
        rw [ih t2 ht1 ht2]
        congr 1
        apply List.filterMap_congr
        intro a ha
        have hka : bytesCmp k1 a.1 = .lt := ht1head a ha
        have hskip : lookupByKey dd a.1 = lookupByKey t2 a.1 := by
          conv_lhs => rw [hddform]
          apply lookupByKey_skip
          intro x hx
          rcases List.mem_append.mp hx with hx | hx
          · exact not_eq_of_gt
              (bytesCmp_lt_trans (hpre x hx) hka)
          · rw [List.mem_singleton.mp hx]
            exact not_eq_of_gt (hk12 ▸ hka)
        rw [hskip]
      · have h12 : bytesCmp k1 k2 = .lt := by
          cases hc : bytesCmp k1 k2 with
          | lt => rfl
          | eq => exact absurd hc heq
          | gt => exact absurd (bytesCmp_gt_iff.mp hc) hk2
        simp only [zip_by_order_key, hdrop, if_neg heq]
        have hlv : lookupByKey dd k1 = none := by
          rw [hlook1, hdrop, lookupByKey, if_neg heq]
          apply lookupByKey_none
          intro x hx
          exact not_eq_of_lt (bytesCmp_lt_trans h12 (ht2head x hx))
        have hf : (fun kr : PkType × Row =>
            (lookupByKey dd kr.1).map fun w => (kr.2, w)) (k1, v1) =
            none := by
          simp [hlv]
        rw [@List.filterMap_cons_none (PkType × Row) (Row × Row)
          (fun kr => (lookupByKey dd kr.1).map fun w => (kr.2, w))
          (k1, v1) t1 hf]
        rw [ih ((k2, v2) :: t2) ht1 hsuf]
        apply List.filterMap_congr
        intro a ha
        have hka : bytesCmp k1 a.1 = .lt := ht1head a ha
        have hskip : lookupByKey dd a.1 = lookupByKey ((k2, v2) :: t2) a.1 := by
          conv_lhs => rw [hsplit, hdrop]
          apply lookupByKey_skip
          intro x hx
          exact not_eq_of_gt (bytesCmp_lt_trans (hpre x hx) hka)
        rw [hskip]

theorem foldlM_error_of_mem {α β : Type} (step : β → α → Except String β)
    (cond : α → Prop) (e0 : String)
    (hcond : ∀ b a, cond a → step b a = .error e0) :
    ∀ (l : List α) (a : α), a ∈ l → cond a → ∀ b, ∃ e,
      l.foldlM step b = .error e := by
  intro l
  induction l with
  | nil => intro a ha; cases ha
  | cons x l ih =>
    intro a ha hc b
    rw [List.foldlM_cons]
    rcases List.mem_cons.mp ha with rfl | hmem
    · refine ⟨e0, ?_⟩
      rw [hcond b a hc]
      rfl
    · cases hs : step b x with
      | error e => exact ⟨e, rfl⟩
      | ok b1 =>
        obtain ⟨e, he⟩ := ih a hmem hc b1
        exact ⟨e, he⟩

theorem foldlM_ok_of_all {α β : Type} (step : β → α → Except String β) :
    ∀ (l : List α), (∀ a ∈ l, ∀ b, ∃ b', step b a = .ok b') →
      ∀ b, ∃ b', l.foldlM step b = .ok b' := by
  intro l
  induction l with
  | nil => intro _ b; exact ⟨b, rfl⟩
  | cons x l ih =>
    intro hall b
    obtain ⟨b1, hs⟩ := hall x (List.mem_cons_self _ _) b
    obtain ⟨b', hb'⟩ := ih (fun a ha => hall a (List.mem_cons_of_mem _ ha)) b1
    refine ⟨b', ?_⟩
    rw [List.foldlM_cons, hs, show (Except.ok b1 >>= fun b2 =>
      l.foldlM step b2) = l.foldlM step b1 from rfl, hb']

/-- C3: with the degree table, fetch-on-miss zips the state and degree
sequences by order key keeping exactly the pairs with equal order keys —
orphans of either side are silently dropped without an error — and for every
kept pair the degree is read from the trailing column of the degree row, a
NULL there being a fatal error. -/
theorem fetch_zip_spec (state_pk_indices : List Nat)
    (td dd : List (PkType × Row)) (htd : keysSorted td) (hdd : keysSorted dd) :
    zip_by_order_key td dd =
      (td.filterMap fun kr => (lookupByKey dd kr.1).map fun w => (kr.2, w)) ∧
    ((∃ rd ∈ zip_by_order_key td dd,
        rd.2.getD (rd.2.length - 1) none = none) →
      ∃ e, fetch_cached_state true state_pk_indices td dd = .error e) ∧
    ((∀ rd ∈ zip_by_order_key td dd,
        ∃ v, rd.2.getD (rd.2.length - 1) none = some (ScalarImpl.int64 v)) →
      ∃ entry, fetch_cached_state true state_pk_indices td dd = .ok entry) := by
  refine ⟨zip_by_order_key_eq_filterMap td dd htd hdd, ?_, ?_⟩
  · rintro ⟨rd, hmem, hnull⟩
    rw [fetch_cached_state, if_pos rfl]
    exact foldlM_error_of_mem (degreeStep state_pk_indices)
      (fun rd => rd.2.getD (rd.2.length - 1) none = none)
      "degree should not be NULL"
      (fun b a hc => by simp only [degreeStep]; rw [hc])
      (zip_by_order_key td dd) rd hmem hnull []
  · intro hall
    rw [fetch_cached_state, if_pos rfl]
    apply foldlM_ok_of_all
    intro a ha b
    obtain ⟨v, hv⟩ := hall a ha
    refine ⟨JoinEntryState.insert
      (memcmpSerialize (project a.1 state_pk_indices))
      (JoinRow.encode { row := a.1, degree := u64OfI64 v }) b, ?_⟩
    simp only [degreeStep]
    rw [hv]
    rfl

/-- Closed witness for C3: one matched pair, one orphan on each side, fetch
succeeds. -/
theorem fetch_zip_spec_witness :
    zip_by_order_key sampleTableData sampleDegreeData =
      [([some (.int64 20)], [some (.int64 20), some (.int64 3)])] ∧
    ∃ entry,
      fetch_cached_state true [0] sampleTableData sampleDegreeData =
        .ok entry := by
  have h := fetch_zip_spec [0] sampleTableData sampleDegreeData
    (by decide) (by decide)
  have hz : zip_by_order_key sampleTableData sampleDegreeData =
      [([some (.int64 20)], [some (.int64 20), some (.int64 3)])] :=
    h.1.trans (by decide)
  refine ⟨hz, ?_⟩
  apply h.2.2
  intro rd hm
  rw [hz, List.mem_singleton] at hm
  subst hm
  exact ⟨3, rfl⟩

/-- Counterexample to C4 as stated: inserting a `JoinRow` whose degree is 5
buffers a degree row carrying 5, not a degree row with degree 0. -/
theorem insert_degree_zero_counterexample :
    (JoinHashMap.insert sampleJHM 0
          { row := [some (.int64 9)], degree := 5 }).map
        (fun m2 => m2.degree_state.writes) =
      .ok [TableOp.insert [some (.int64 9), some (.int64 5)]] ∧
    [TableOp.insert ([some (.int64 9), some (.int64 5)] : Row)] ≠
      [TableOp.insert
        (build_degree_row
          (project [some (.int64 9)] sampleJHM.state_order_key_indices) 0)] := by
  constructor
  · decide
  · decide

/-- C4 (amended): `insert` adds the encoded row to the in-memory entry only
when the key is cached; in every case it buffers the row into the state table
and a degree row carrying the `JoinRow` degree (0 exactly when the inserted
row has degree 0) into the degree table; and when `need_degree_table` is
false, fetch-on-miss constructs every entry with degree 0. -/
theorem insert_spec {K : Type} [DecidableEq K] (m : JoinHashMap K) (key : K)
    (value : JoinRow) (td dd : List (PkType × Row)) :
    (∀ entry, lookupCache m.cache key = some (some entry) →
      m.insert key value =
        .ok
          { m with
              cache := putCache m.cache key
                (some (JoinEntryState.insert
                  (memcmpSerialize (project value.row m.state_pk_indices))
                  value.encode entry))
              state :=
                { m.state with
                  writes := m.state.writes ++ [TableOp.insert value.row] }
              degree_state :=
                { m.degree_state with
                  writes := m.degree_state.writes ++
                    [TableOp.insert
                      (build_degree_row
                        (project value.row m.state_order_key_indices)
                        value.degree)] } }) ∧
    (lookupCache m.cache key = none →
      m.insert key value =
        .ok
          { m with
              state :=
                { m.state with
                  writes := m.state.writes ++ [TableOp.insert value.row] }
              degree_state :=
                { m.degree_state with
                  writes := m.degree_state.writes ++
                    [TableOp.insert
                      (build_degree_row
                        (project value.row m.state_order_key_indices)
                        value.degree)] } }) ∧
    (∀ entry, fetch_cached_state false m.state_pk_indices td dd = .ok entry →
      ∀ kv ∈ entry, kv.2.degree = 0) := by
  refine ⟨?_, ?_, ?_⟩
  · intro entry h
    simp only [JoinHashMap.insert, h, JoinRow.to_table_rows]
    rfl
  · intro h
    simp only [JoinHashMap.insert, h, JoinRow.to_table_rows]
    rfl
  · intro entry h kv hkv
    rw [fetch_cached_state, if_neg (by simp)] at h
    simp only [Except.ok.injEq] at h
    subst h
    rcases mem_entry_foldl
        (fun kr => memcmpSerialize (project kr.2 m.state_pk_indices))
        (fun kr => JoinRow.encode { row := kr.2, degree := 0 }) td [] kv hkv
      with h1 | h1
    · cases h1
    · obtain ⟨x, _, hkv2⟩ := h1
      rw [hkv2]
      rfl

/-- Closed witness for C4 (amended): inserting into an uncached key buffers
both table writes, and fetch-on-miss without a degree table yields only
degree-0 entries. -/
theorem insert_spec_witness :
    JoinHashMap.insert sampleJHM 0 { row := [some (.int64 9)], degree := 0 } =
      .ok
        { sampleJHM with
            state :=
              { sampleJHM.state with
                writes := sampleJHM.state.writes ++
                  [TableOp.insert [some (.int64 9)]] }
            degree_state :=
              { sampleJHM.degree_state with
                writes := sampleJHM.degree_state.writes ++
                  [TableOp.insert
                    (build_degree_row
                      (project [some (.int64 9)]
                        sampleJHM.state_order_key_indices) 0)] } } ∧
    (∃ entry,
      fetch_cached_state false [0] sampleTableData [] = .ok entry ∧
        ∀ kv ∈ entry, kv.2.degree = 0) := by
  constructor
  · exact (insert_spec sampleJHM 0
      { row := [some (.int64 9)], degree := 0 } [] []).2.1 rfl
  · obtain ⟨entry, hf⟩ :
        ∃ entry, fetch_cached_state false [0] sampleTableData [] = .ok entry :=
      ⟨_, by rw [fetch_cached_state, if_neg (by simp)]⟩
    exact ⟨entry, hf,
      (insert_spec sampleJHM 0 { row := [some (.int64 9)], degree := 0 }
        sampleTableData []).2.2 entry hf⟩

theorem tmod12_bounds (a : Int) : -12 < a.tmod 12 ∧ a.tmod 12 < 12 := by
  have hub : a.tmod 12 < 12 :=
    Int.tmod_lt_of_pos a (show (0 : Int) < 12 by norm_num)
  rcases le_or_lt 0 a with h | h
  · have hlb : 0 ≤ a.tmod 12 := Int.tmod_nonneg 12 h
    exact ⟨by omega, hub⟩
  · have hneg : a.tmod 12 = -((-a).tmod 12) := by
      rw [Int.tmod_def, Int.tmod_def, Int.neg_tdiv]
      ring
    have h2 : (-a).tmod 12 < 12 :=
      Int.tmod_lt_of_pos (-a) (show (0 : Int) < 12 by norm_num)
    exact ⟨by omega, hub⟩

theorem add_months_code_eq (y m d im : Int) (h1 : 1 ≤ m) (h2 : m ≤ 12) :
    add_months_code y m d im =
      from_ymd_opt ((12 * y + (m - 1) + im) / 12)
        ((12 * y + (m - 1) + im) % 12 + 1)
        (min d
          (get_mouth_days ((12 * y + (m - 1) + im) / 12)
            (((12 * y + (m - 1) + im) % 12 + 1).toNat))) := by
  have hq : im.tmod 12 + 12 * im.tdiv 12 = im := Int.tmod_add_tdiv im 12
  have hb := tmod12_bounds im
  simp only [add_months_code]
  split
  · rename_i hgt
    have e1 : y + im.tdiv 12 + 1 = (12 * y + (m - 1) + im) / 12 := by omega
    have e2 : m + (im - im.tdiv 12 * 12) - 12 =
        (12 * y + (m - 1) + im) % 12 + 1 := by omega
    rw [e1, e2]
  · split
    · rename_i hgt hle
      have e1 : y + im.tdiv 12 - 1 = (12 * y + (m - 1) + im) / 12 := by omega
      have e2 : m + (im - im.tdiv 12 * 12) + 12 =
          (12 * y + (m - 1) + im) % 12 + 1 := by omega
      rw [e1, e2]
    · rename_i hgt hle
      have e1 : y + im.tdiv 12 = (12 * y + (m - 1) + im) / 12 := by omega
      have e2 : m + (im - im.tdiv 12 * 12) =
          (12 * y + (m - 1) + im) % 12 + 1 := by omega
      rw [e1, e2]

/-- C8: adding an interval to a timestamp follows the staged PostgreSQL
semantics — first add the months by calendar arithmetic clamping the day to
the last valid day of the resulting month (leap years respected), then add
the days, then the milliseconds, failing with `none` whenever a stage leaves
the representable range. -/
theorem checked_add_follows_postgres (t : NaiveDateTime) (rhs : IntervalUnit)
    (hv : validDateTime t) :
    checked_add t rhs =
      (addMonthsCalendar t rhs.months).bind fun t1 =>
        (checked_add_days t1 rhs.days).bind fun t2 =>
          checked_add_ms t2 rhs.ms := by
  obtain ⟨hy1, hy2, hm1, hm2, hd1, hd2, _, _⟩ := hv
  rw [checked_add, addMonthsCalendar]
  by_cases hm : rhs.months = 0
  · rw [if_neg (by simp [hm])]
    have hky : (12 * t.year + (t.month - 1) + rhs.months) / 12 = t.year := by
      rw [hm]
      omega
    have hkm : (12 * t.year + (t.month - 1) + rhs.months) % 12 + 1 =
        t.month := by
      rw [hm]
      omega
    rw [hky, hkm]
    rw [min_eq_left hd2]
    rw [from_ymd_opt, if_pos ⟨hy1, hy2, hm1, hm2, hd1, hd2⟩]
    rfl
  · rw [if_pos hm]
    rw [add_months_code_eq t.year t.month t.day rhs.months hm1 hm2]
    cases from_ymd_opt ((12 * t.year + (t.month - 1) + rhs.months) / 12)
        ((12 * t.year + (t.month - 1) + rhs.months) % 12 + 1)
        (min t.day
          (get_mouth_days ((12 * t.year + (t.month - 1) + rhs.months) / 12)
            (((12 * t.year + (t.month - 1) + rhs.months) % 12 + 1).toNat))) with
    | none => rfl
    | some c => rfl

/-- Closed witness for C8: 2000-01-31 plus one month clamps to the leap day
2000-02-29, and the staged decomposition agrees. -/
theorem checked_add_follows_postgres_witness :
    validDateTime { year := 2000, month := 1, day := 31, msOfDay := 0 } ∧
    checked_add { year := 2000, month := 1, day := 31, msOfDay := 0 }
        { months := 1, days := 0, ms := 0 } =
      (addMonthsCalendar { year := 2000, month := 1, day := 31, msOfDay := 0 }
          1).bind fun t1 =>
        (checked_add_days t1 0).bind fun t2 => checked_add_ms t2 0 :=
  ⟨by decide,
    checked_add_follows_postgres
      { year := 2000, month := 1, day := 31, msOfDay := 0 }
      { months := 1, days := 0, ms := 0 } (by decide)⟩

theorem lookupCache_putCache {K A : Type} [DecidableEq K] :
    ∀ (t : List (K × A)) (k k' : K) (v : A),
      lookupCache (putCache t k v) k' =
        if k' = k then some v else lookupCache t k' := by
  intro t
  induction t with
  | nil => intro k k' v; rfl
  | cons kv0 rest ih =>
    intro k k' v
    obtain ⟨k0, v0⟩ := kv0
    by_cases hk : k = k0
    · subst hk
      rw [putCache, if_pos rfl]
      by_cases h' : k' = k
      · simp [lookupCache, h']
      · simp [lookupCache, h']
    · rw [putCache, if_neg hk]
      by_cases h0 : k' = k0
      · subst h0
        have hne : ¬k' = k := fun hc => hk (hc ▸ rfl)
        simp [lookupCache, hne]
      · simp [lookupCache, h0, ih]

theorem lookupCache_append_single {K A : Type} [DecidableEq K] :
    ∀ (t : List (K × A)) (k k' : K) (v : A), lookupCache t k = none →
      lookupCache (t ++ [(k, v)]) k' =
        if k' = k then some v else lookupCache t k' := by
  intro t
  induction t with
  | nil => intro k k' v _; rfl
  | cons kv0 rest ih =>
    intro k k' v h
    obtain ⟨k0, v0⟩ := kv0
    rw [lookupCache] at h
    have hk : ¬k = k0 := by
      intro hc
      rw [if_pos hc] at h
      cases h
    rw [if_neg hk] at h
    by_cases h0 : k' = k0
    · subst h0
      have hne : ¬k' = k := fun hc => hk (hc ▸ rfl)
      simp [lookupCache, hne]
    · simp [List.cons_append, lookupCache, h0, ih k k' v h]

theorem handler_get_set (t : SourceStateTable) (k v k' : Bytes) :
    SourceStateTableHandler.get (SourceStateTableHandler.set t k v) k' =
      if k' = k then
        some [some (.utf8 k), some (.utf8 v)]
      else SourceStateTableHandler.get t k' := by
  rw [SourceStateTableHandler.set]
  cases hg : SourceStateTableHandler.get t k with
  | some r =>
    rw [SourceStateTableHandler.get, lookupCache_putCache]
    rfl
  | none =>
    rw [SourceStateTableHandler.get, lookupCache_append_single t k k' _ hg]
    rfl

theorem take_fold_untouched :
    ∀ (states : List SplitState) (t : SourceStateTable) (k : Bytes),
      (∀ s ∈ states, s.id ≠ k) →
      SourceStateTableHandler.get
          (states.foldl
            (fun t2 s => SourceStateTableHandler.set t2 s.id s.bytes) t) k =
        SourceStateTableHandler.get t k := by
  intro states
  induction states with
  | nil => intro t k _; rfl
  | cons x l ih =>
    intro t k hall
    rw [List.foldl_cons,
      ih (SourceStateTableHandler.set t x.id x.bytes) k
        (fun s hs => hall s (List.mem_cons_of_mem _ hs)),
      handler_get_set,
      if_neg (fun hc : k = x.id =>
        hall x (List.mem_cons_self _ _) (hc ▸ rfl))]

theorem take_fold_mem :
    ∀ (states : List SplitState) (t : SourceStateTable),
      (states.map (·.id)).Nodup →
      ∀ s ∈ states,
        SourceStateTableHandler.get
            (states.foldl
              (fun t2 s2 => SourceStateTableHandler.set t2 s2.id s2.bytes) t)
            s.id =
          some [some (.utf8 s.id), some (.utf8 s.bytes)] := by
  intro states
  induction states with
  | nil => intro t _ s hs; cases hs
  | cons x l ih =>
    intro t hnd s hs
    rw [List.map_cons, List.nodup_cons] at hnd
    obtain ⟨hxid, hltl⟩ := hnd
    rw [List.foldl_cons]
    rcases List.mem_cons.mp hs with rfl | hs
    · have hall : ∀ s2 ∈ l, s2.id ≠ s.id := by
        intro s2 hs2 hc
        exact hxid (hc ▸ List.mem_map_of_mem (·.id) hs2)
      rw [take_fold_untouched l _ s.id hall, handler_get_set, if_pos rfl]
    · exact ih (SourceStateTableHandler.set t x.id x.bytes) hltl s hs

/-- C10: `take_snapshot` on an empty list of split states fails and leaves
the state table unchanged; on a non-empty list it succeeds and upserts each
split keyed by its id — a snapshotted id reads back its fresh row (update
when the id already had a row, insert otherwise), every other id reads back
unchanged. -/
theorem take_snapshot_spec (t : SourceStateTable)
    (states : List SplitState) :
    (states = [] →
      SourceStateTableHandler.take_snapshot t states =
        (.error "states require not null", t)) ∧
    (states ≠ [] →
      (SourceStateTableHandler.take_snapshot t states).1 = .ok () ∧
      ((states.map (·.id)).Nodup →
        ∀ s ∈ states,
          SourceStateTableHandler.get
              (SourceStateTableHandler.take_snapshot t states).2 s.id =
            some [some (.utf8 s.id), some (.utf8 s.bytes)]) ∧
      (∀ k, (∀ s ∈ states, s.id ≠ k) →
        SourceStateTableHandler.get
            (SourceStateTableHandler.take_snapshot t states).2 k =
          SourceStateTableHandler.get t k)) := by
  constructor
  · intro h
    subst h
    rfl
  · intro h
    have hne : ¬states.isEmpty = true := by
      cases states with
      | nil => exact absurd rfl h
      | cons x l => simp
    refine ⟨?_, ?_, ?_⟩
    · rw [SourceStateTableHandler.take_snapshot, if_neg hne]
    · intro hnd s hs
      rw [SourceStateTableHandler.take_snapshot, if_neg hne]
      exact take_fold_mem states t hnd s hs
    · intro k hall
      rw [SourceStateTableHandler.take_snapshot, if_neg hne]
      exact take_fold_untouched states t k hall

/-- Closed witness for C10: the empty snapshot fails leaving the table as it
was; a two-split snapshot stores both rows and keeps an unrelated row. -/
theorem take_snapshot_spec_witness :
    SourceStateTableHandler.take_snapshot
        [([99], [some (.utf8 [99]), some (.utf8 [0])])] [] =
      (.error "states require not null",
        [([99], [some (.utf8 [99]), some (.utf8 [0])])]) ∧
    SourceStateTableHandler.get
        (SourceStateTableHandler.take_snapshot
            [([99], [some (.utf8 [99]), some (.utf8 [0])])]
            [{ id := [97], bytes := [1] }, { id := [98], bytes := [2] }]).2
        [97] =
      some [some (.utf8 [97]), some (.utf8 [1])] ∧
    SourceStateTableHandler.get
        (SourceStateTableHandler.take_snapshot
            [([99], [some (.utf8 [99]), some (.utf8 [0])])]
            [{ id := [97], bytes := [1] }, { id := [98], bytes := [2] }]).2
        [99] =
      some [some (.utf8 [99]), some (.utf8 [0])] := by
  have h0 := take_snapshot_spec
    [([99], [some (.utf8 [99]), some (.utf8 [0])])] ([] : List SplitState)
  have h1 := take_snapshot_spec
    [([99], [some (.utf8 [99]), some (.utf8 [0])])]
    [{ id := [97], bytes := [1] }, { id := [98], bytes := [2] }]
  refine ⟨h0.1 rfl, ?_, ?_⟩
  · exact (h1.2 (by decide)).2.1 (by decide) { id := [97], bytes := [1] }
      (by decide)
  · exact (h1.2 (by decide)).2.2 [99] (by decide)
